import Mathlib

/-!
Verification development for the cinatra single-connection HTTP/WebSocket
client core (`include/cinatra/coro_http_client.hpp`).

The C++ code is shallowly embedded: byte sequences are `List Char`,
`std::error_code` values are drawn from a small enumeration `EC`,
coroutine control flow is modelled as explicit state passing over an
environment record that fixes the outcome of each suspension point
(connect, TLS handshake, write, read, timer).  Machine integers are `Nat`,
with `% 2 ^ 64` made explicit at the single place where `size_t`
underflow matters.  Constants that live outside the embedded header
(`BOUNDARY`, the extension-to-MIME table, `hex_to_int`) are parameters of
the definitions or are modelled from the specification, as noted in the
doc comments.
-/

namespace Cinatra

/-- Error-code enumeration covering the `std::errc` / asio values the
client surfaces. -/
inductive EC where
  | protocol_error
  | not_connected
  | timed_out
  | no_such_file_or_directory
  | invalid_argument
  | not_a_stream
  deriving DecidableEq, Repr

/-- The CRLF constant (`CRCF` in the source). -/
def CRCF : List Char := ['\r', '\n']

/-- The double CRLF constant (`TWO_CRCF` in the source). -/
def TWO_CRCF : List Char := CRCF ++ CRCF

/-! ## add_header (pending user headers) -/

/-- Embedding of `coro_http_client::add_header`: rejects the empty key,
rejects the key `Host`, rejects a key already present in `req_headers_`,
and otherwise appends the pair.  Returns the updated header list and the
`bool` result. -/
def add_header (hdrs : List (String × String)) (key val : String) :
    List (String × String) × Bool :=
  if key = "" then (hdrs, false)
  else if key = "Host" then (hdrs, false)
  else if hdrs.any (fun p => p.1 = key) then (hdrs, false)
  else (hdrs ++ [(key, val)], true)

/-! ## check_scheme (URI scheme normalization) -/

/-- Embedding of `std::string::find_first_of`: index of the first
character of `s` that occurs in `set`, if any. -/
def findFirstOf : List Char → List Char → Option Nat
  | [], _ => none
  | c :: rest, set =>
      if c ∈ set then some 0 else (findFirstOf rest set).map (· + 1)

/-- Embedding of `coro_http_client::check_scheme`: the source computes
`find_first_of` of the four scheme strings (a character-set search, not a
substring search) and tests whether the position is `0`; when no scheme
is detected it prepends `"http://"`. -/
def check_scheme (url : List Char) : List Char :=
  if findFirstOf url ("http://".toList) = some 0 ∨
      findFirstOf url ("https://".toList) = some 0 ∨
      findFirstOf url ("ws://".toList) = some 0 ∨
      findFirstOf url ("wss://".toList) = some 0 then
    url
  else
    "http://".toList ++ url

/-- The set of characters occurring in one of the four scheme literals;
`check_scheme` leaves a URL alone exactly when its first character lies
in this set. -/
def schemeHeadChars : List Char := ['h', 't', 'p', 's', 'w', ':', '/']

/-! ## Multipart registry and upload byte accounting -/

/-- Embedding of `struct multipart_t`.  `filename` is empty for string
parts; `size` is the registered content size (string length for
`add_str_part`, `std::filesystem::file_size` for `add_file_part`). -/
structure multipart_t where
  filename : List Char
  content : List Char
  size : Nat
  deriving DecidableEq, Repr

/-- Embedding of `std::filesystem::path::filename()` for POSIX paths:
the component after the last `/` (empty for a path ending in `/`). -/
def basename (p : List Char) : List Char :=
  (p.reverse.takeWhile (fun c => c ≠ '/')).reverse

/-- Embedding of `std::filesystem::path::extension()`: taken on the
filename component; empty for `.`, `..`, a dotless name, or a name whose
only dot is its first character; otherwise the suffix from the rightmost
dot inclusive. -/
def extOf (p : List Char) : List Char :=
  let f := basename p
  if f = ['.'] ∨ f = ['.', '.'] then []
  else
    let tail := f.reverse.takeWhile (fun c => c ≠ '.')
    if tail.length = f.length then []
    else if tail.length + 1 = f.length then []
    else '.' :: tail.reverse

/-- The literal `"Content-Disposition: form-data; name=\""` written by
`send_single_part`. -/
def dispositionLit : List Char := "Content-Disposition: form-data; name=\"".toList

/-- The part header bytes built by `send_single_part` before the body:
boundary line, `Content-Disposition` with the quoted name, for file parts
`; filename="<basename>"` and (when the extension has a MIME entry) a
`Content-Type:` fragment appended without an intervening CRLF, exactly as
the source concatenates them, then `TWO_CRCF`.  `B` stands for the
externally defined `BOUNDARY` constant and `mime` for the external
`g_content_type_map` lookup. -/
def partHead (B : List Char) (mime : List Char → Option (List Char))
    (key : List Char) (part : multipart_t) : List Char :=
  let h0 := ('-' :: '-' :: B) ++ CRCF ++ dispositionLit ++ key ++ ['\"']
  let h1 :=
    if part.filename = [] then h0
    else
      let short := basename part.filename
      let h := h0 ++ "; filename=\"".toList ++ short ++ ['\"']
      match mime (extOf short) with
      | some m => h ++ "Content-Type: ".toList ++ m
      | none => h
  h1 ++ TWO_CRCF

/-- Bytes `send_single_part` puts on the wire for one part: the header,
the body (`part.size` streamed bytes for a file part, `part.content` for
a string part) and the trailing CRLF. -/
def partWireLen (B : List Char) (mime : List Char → Option (List Char))
    (key : List Char) (part : multipart_t) : Nat :=
  (partHead B mime key part).length +
    (if part.filename = [] then part.content.length else part.size) +
    CRCF.length

/-- The closing boundary bytes `--<BOUNDARY>--\r\n` written by
`async_upload` after the last part. -/
def closingBytes (B : List Char) : List Char :=
  '-' :: '-' :: B ++ '-' :: '-' :: CRCF

/-- Total bytes transmitted between the first byte of the first part
header and the closing boundary inclusive. -/
def multipartWireLen (B : List Char) (mime : List Char → Option (List Char))
    (parts : List (List Char × multipart_t)) : Nat :=
  (parts.map (fun kp => partWireLen B mime kp.1 kp.2)).sum +
    (closingBytes B).length

/-- Embedding of `coro_http_client::multipart_content_len`: the
hand-computed per-part accounting (`75 + name + 1`, `12 + filename + 1`,
`14 + mime`, `4`, `size + 2`) plus `6 + BOUNDARY.size` for the closing
boundary.  Note the file term uses the size of the full registered
`part.filename`, and the MIME lookup uses
`std::filesystem::path(part.filename).extension()`. -/
def multipart_content_len (B : List Char) (mime : List Char → Option (List Char))
    (form : List (List Char × multipart_t)) : Nat :=
  (form.map (fun kp =>
      75 + kp.1.length + 1 +
        (if kp.2.filename = [] then 0
         else
           12 + kp.2.filename.length + 1 +
             (match mime (extOf kp.2.filename) with
              | some m => 14 + m.length
              | none => 0)) +
        4 + (kp.2.size + 2))).sum +
    (6 + B.length)

/-! ## The multipart registry as a `std::map` (key-ordered) -/

/-- Byte-wise lexicographic comparison, the `std::less<std::string>`
order used by `std::map<std::string, multipart_t>`. -/
def charListLt : List Char → List Char → Bool
  | [], [] => false
  | [], _ :: _ => true
  | _ :: _, [] => false
  | a :: as, b :: bs =>
      if a < b then true else if b < a then false else charListLt as bs

/-- Embedding of `std::map::emplace` on the key-sorted association list
that models `form_data_`: inserts at the ordered position when the key is
absent, otherwise leaves the map unchanged and reports `false`. -/
def mapEmplace : List (List Char × multipart_t) → List Char → multipart_t →
    List (List Char × multipart_t) × Bool
  | [], k, v => ([(k, v)], true)
  | (k1, v1) :: rest, k, v =>
      if charListLt k k1 then ((k, v) :: (k1, v1) :: rest, true)
      else if charListLt k1 k then
        let r := mapEmplace rest k v
        ((k1, v1) :: r.1, r.2)
      else ((k1, v1) :: rest, false)

/-- Embedding of `coro_http_client::add_str_part`: emplaces a part with
empty filename whose `size` is the content length. -/
def add_str_part (form : List (List Char × multipart_t))
    (name content : List Char) : List (List Char × multipart_t) × Bool :=
  mapEmplace form name ⟨[], content, content.length⟩

/-- Registry resulting from a sequence of `add_str_part` calls starting
from the empty registry. -/
def buildForm (adds : List (List Char × List Char)) :
    List (List Char × multipart_t) :=
  adds.foldl (fun m nc => (add_str_part m nc.1 nc.2).1) []

/-- The order in which `async_upload` transmits the registered parts: the
iteration order of `form_data_`. -/
def uploadOrder (form : List (List Char × multipart_t)) : List (List Char) :=
  form.map Prod.fst

/-! ## WebSocket reader loop -/

/-- Payload slice passed to `on_ws_close_` for a close frame with payload
`p`: the source advances the data pointer by `sizeof(uint16_t)` bytes but
shrinks the `size_t` payload length by `4`, so the view is
`p.drop 2` truncated to `(p.length - 4) mod 2 ^ 64`. -/
def wsCloseDelivered (p : List Char) : List Char :=
  (p.drop 2).take ((p.length + (2 ^ 64 - 4)) % 2 ^ 64)

/-- A decoded frame arriving at the reader loop: a non-close data frame
or a close frame, each with its payload. -/
inductive WsFrame where
  | data (p : List Char)
  | close (p : List Char)
  deriving DecidableEq, Repr

/-- Observable events emitted by the reader loop, in order. -/
inductive WsEvent where
  | onMsg (p : List Char)
  | onClose (p : List Char)
  | sentClose
  | socketClosed
  deriving DecidableEq, Repr

/-- Embedding of the `async_read_ws` loop over the sequence of decoded
frames it receives: each data frame invokes `on_ws_msg_` and the loop
continues; the first close frame invokes `on_ws_close_` with the sliced
payload, sends a close frame back, closes the socket and returns. -/
def wsReaderTrace : List WsFrame → List WsEvent
  | [] => []
  | .data p :: rest => .onMsg p :: wsReaderTrace rest
  | .close p :: _ =>
      [.onClose (wsCloseDelivered p), .sentClose, .socketClosed]

/-- Recognizer for `onClose` events. -/
def isCloseEvent : WsEvent → Bool
  | .onClose _ => true
  | _ => false

/-! ## Chunked transfer decoding -/

/-- Modelled from the spec: `hex_to_int` (declared outside the embedded
header) maps a hexadecimal digit to its value, accepting `0-9`, `a-f`
and `A-F`. -/
def hexVal (c : Char) : Option Nat :=
  if '0' ≤ c ∧ c ≤ '9' then some (c.toNat - '0'.toNat)
  else if 'a' ≤ c ∧ c ≤ 'f' then some (c.toNat - 'a'.toNat + 10)
  else if 'A' ≤ c ∧ c ≤ 'F' then some (c.toNat - 'A'.toNat + 10)
  else none

/-- Value of the leading hexadecimal run of a character list, folded
left to right onto an accumulator; stops at the first non-hex
character. -/
def hexRunVal : List Char → Nat → Nat
  | [], acc => acc
  | c :: rest, acc =>
      match hexVal c with
      | some d => hexRunVal rest (16 * acc + d)
      | none => acc

/-- Modelled from the spec: `hex_to_int` parses only the leading hex run
of the chunk-size line and yields a negative value when the line is
empty or does not begin with a hex digit. -/
def hexToInt (s : List Char) : Int :=
  match s with
  | [] => -1
  | c :: _ =>
      match hexVal c with
      | none => -1
      | some _ => (hexRunVal s 0 : Int)

/-- Hexadecimal digit character for a value below 16 (lowercase). -/
def toHexDigit (n : Nat) : Char :=
  if n < 10 then Char.ofNat ('0'.toNat + n) else Char.ofNat ('a'.toNat + n - 10)

/-- Fuelled big-endian hexadecimal rendering of a positive number. -/
def toHexAux : Nat → Nat → List Char
  | 0, _ => []
  | _ + 1, 0 => []
  | fuel + 1, n + 1 =>
      toHexAux fuel ((n + 1) / 16) ++ [toHexDigit ((n + 1) % 16)]

/-- Hexadecimal rendering of a chunk size, used to build well-formed
chunked streams on the specification side. -/
def toHex (n : Nat) : List Char :=
  match n with
  | 0 => ['0']
  | m + 1 => toHexAux (m + 1) (m + 1)

/-- Splits a byte stream at the first occurrence of CRLF, the
behaviour of `async_read_until(read_buf_, CRCF)` on a fully buffered
stream: the line before the delimiter and the bytes after it. -/
def splitAtCRCF : List Char → Option (List Char × List Char)
  | [] => none
  | [_] => none
  | c1 :: c2 :: rest =>
      if c1 = '\r' ∧ c2 = '\n' then some ([], rest)
      else
        match splitAtCRCF (c2 :: rest) with
        | some (l, r) => some (c1 :: l, r)
        | none => none

/-- Result of `handle_chunked`: the error code it breaks with, the bytes
delivered to the sink (`ctx.stream` or `resp_chunk_str_`), the response
status, the `eof` flag and the unconsumed tail of the input. -/
structure ChunkedOut where
  ec : Option EC
  delivered : List Char
  status : Nat
  eof : Bool
  rest : List Char
  deriving DecidableEq, Repr

/-- Embedding of `coro_http_client::handle_chunked` over a fully
materialized input stream, with fuel for termination (`none` means the
fuel ran out, which a caller avoids by supplying more fuel than chunks).
Per iteration: read up to CRLF, parse the leading hex run, fail on a
negative size, finish on size zero (consume the trailing CRLF, set the
status to 200, set `eof`), otherwise error if the remaining bytes cannot
cover `size + 2`, deliver `size` bytes and consume `size + 2`. -/
def handle_chunked : Nat → List Char → List Char → Nat → Option ChunkedOut
  | 0, _, _, _ => none
  | fuel + 1, input, acc, status =>
      match splitAtCRCF input with
      | none => some ⟨some EC.not_connected, acc, status, false, input⟩
      | some (line, rest) =>
          let sz := hexToInt line
          if sz < 0 then
            some ⟨some EC.invalid_argument, acc, status, false, rest⟩
          else if sz = 0 then
            some ⟨none, acc, 200, true, rest.drop 2⟩
          else if rest.length < sz.toNat + 2 then
            some ⟨some EC.not_connected, acc, status, false, rest⟩
          else
            handle_chunked fuel (rest.drop (sz.toNat + 2))
              (acc ++ rest.take sz.toNat) status

/-- One chunk of a well-formed chunked stream: hex size line, CRLF,
payload, CRLF. -/
def encodeChunk (c : List Char) : List Char :=
  toHex c.length ++ CRCF ++ c ++ CRCF

/-- A well-formed chunked stream: the encoded chunks followed by the
zero-size chunk line and the final CRLF. -/
def encodeChunked (chunks : List (List Char)) : List Char :=
  (chunks.map encodeChunk).flatten ++ ('0' :: CRCF) ++ CRCF

/-! ## Request engine orchestration -/

/-- Embedding of `struct resp_data` (the benchmark-only field omitted). -/
structure resp_data where
  net_err : Option EC
  status : Nat
  resp_body : List Char
  eof : Bool
  deriving DecidableEq, Repr

/-- Client state the request paths read and write: the `has_closed_`
flag, the pending user headers and the multipart registry. -/
structure ClientState where
  has_closed : Bool
  req_headers : List (String × String)
  form_data : List (List Char × multipart_t)
  deriving DecidableEq, Repr

/-- Outcome of every suspension point of one `async_request` run: URI
parse success, whether the URI is `https`/`wss`, and the error codes the
transport operations complete with (`none` for success), plus what a
successful `handle_read` yields and whether the deadline timer fired. -/
structure ReqEnv where
  parse_ok : Bool
  is_ssl : Bool
  connect_ec : Option EC
  shake_ec : Option EC
  write_ec : Option EC
  read_ec : Option EC
  read_status : Nat
  read_body : List Char
  read_eof : Bool
  read_keep_alive : Bool
  timer_fired : Bool
  deriving DecidableEq, Repr

/-- Embedding of `coro_http_client::handle_result`: a non-empty error
code closes the socket and stamps the datum with the error and status
404; otherwise the socket is closed exactly when the response was not
keep-alive.  Returns the final datum and the final `has_closed_`. -/
def handle_result (data : resp_data) (ec : Option EC)
    (is_keep_alive closed : Bool) : resp_data × Bool :=
  match ec with
  | some e => ({ data with net_err := some e, status := 404 }, true)
  | none => (data, if is_keep_alive then closed else true)

/-- Embedding of the connect phase shared by `async_request` and
`connect`: when `has_closed_`, resolve and connect (on failure
`has_closed_` stays `true`), then for TLS URIs run the handshake (on
failure `has_closed_` also stays `true`); only after full success is
`has_closed_` set to `false`.  Returns the first error and the
`has_closed_` value after the phase. -/
def connectPhase (hasClosed : Bool) (connect_ec : Option EC)
    (ssl : Bool) (shake_ec : Option EC) : Option EC × Bool :=
  if hasClosed then
    match connect_ec with
    | some e => (some e, true)
    | none =>
        if ssl then
          match shake_ec with
          | some e => (some e, true)
          | none => (none, false)
        else (none, false)
  else (none, false)

/-- Embedding of `coro_http_client::async_request`: scheme check and URI
parse (parse failure stamps `protocol_error`/404 into the datum without
an error code), connect/handshake when closed, write, `handle_read`
(on a read error the datum carries no `net_err`; its partial fields are
abstracted as empty), then the timer override and `handle_result`.
Returns the response datum and the final `has_closed_`; the guard clears
`req_headers_` on every path, which the callers observe separately. -/
def async_request (st : ClientState) (env : ReqEnv) : resp_data × Bool :=
  let body : resp_data × Option EC × Bool × Bool :=
    if env.parse_ok = false then
      (⟨some EC.protocol_error, 404, [], false⟩, none, false, st.has_closed)
    else
      match connectPhase st.has_closed env.connect_ec env.is_ssl env.shake_ec with
      | (some e, closed) => (⟨none, 0, [], false⟩, some e, false, closed)
      | (none, closed) =>
          match env.write_ec with
          | some e => (⟨none, 0, [], false⟩, some e, false, closed)
          | none =>
              match env.read_ec with
              | some e =>
                  (⟨none, 0, [], false⟩, some e, env.read_keep_alive, closed)
              | none =>
                  (⟨none, env.read_status, env.read_body, env.read_eof⟩,
                    none, env.read_keep_alive, closed)
  match body with
  | (data, ec, ika, closed) =>
      let ec2 := if env.timer_fired then some EC.timed_out else ec
      handle_result data ec2 ika closed

/-- Outcome of every suspension point of one `async_upload` run.  The
entries of `part_send_ecs` give, in registry order, the error each
`send_single_part` call completes with. -/
structure UploadEnv where
  parse_ok : Bool
  is_ssl : Bool
  connect_ec : Option EC
  shake_ec : Option EC
  header_write_ec : Option EC
  part_send_ecs : List (Option EC)
  last_write_ec : Option EC
  read_ec : Option EC
  read_status : Nat
  read_body : List Char
  read_eof : Bool
  read_keep_alive : Bool
  timer_fired : Bool
  deriving DecidableEq, Repr

/-- First error among the per-part send outcomes, the point at which the
`async_upload` part loop returns early. -/
def firstErr : List (Option EC) → Option EC
  | [] => none
  | some e :: _ => some e
  | none :: rest => firstErr rest

/-- What one `async_upload` run leaves behind: the datum, the final
`has_closed_`, the pending headers and registry after the cleanup guard,
and whether the connect step and any body write were reached. -/
structure UploadOut where
  resp : resp_data
  closed : Bool
  headersAfter : List (String × String)
  formAfter : List (List Char × multipart_t)
  didConnect : Bool
  didWrite : Bool
  deriving DecidableEq, Repr

/-- Embedding of `coro_http_client::async_upload(uri)`: the scope guard
clears `req_headers_` and `form_data_` on every return path; an empty
registry returns `{{}, 404}` before any connect or write; URI parse
failure likewise returns a fresh `{{}, 404}`; then connect (early return
with the connect or handshake error, socket still closed), header write,
the part loop, and the closing boundary write all return their error
with status 404 without closing the socket; the tail runs
`handle_read`, the timer override and `handle_result` as in
`async_request`. -/
def async_upload (st : ClientState) (env : UploadEnv) : UploadOut :=
  if st.form_data = [] then
    ⟨⟨none, 404, [], false⟩, st.has_closed, [], [], false, false⟩
  else if env.parse_ok = false then
    ⟨⟨none, 404, [], false⟩, st.has_closed, [], [], false, false⟩
  else
    match connectPhase st.has_closed env.connect_ec env.is_ssl env.shake_ec with
    | (some e, closed) => ⟨⟨some e, 404, [], false⟩, closed, [], [], true, false⟩
    | (none, closed) =>
        match env.header_write_ec with
        | some e => ⟨⟨some e, 404, [], false⟩, closed, [], [], true, true⟩
        | none =>
            match firstErr (env.part_send_ecs.take st.form_data.length) with
            | some e => ⟨⟨some e, 404, [], false⟩, closed, [], [], true, true⟩
            | none =>
                match env.last_write_ec with
                | some e =>
                    ⟨⟨some e, 404, [], false⟩, closed, [], [], true, true⟩
                | none =>
                    let step : resp_data × Option EC × Bool :=
                      match env.read_ec with
                      | some e =>
                          (⟨none, 0, [], false⟩, some e, env.read_keep_alive)
                      | none =>
                          (⟨none, env.read_status, env.read_body, env.read_eof⟩,
                            none, env.read_keep_alive)
                    let ec2 :=
                      if env.timer_fired then some EC.timed_out else step.2.1
                    match handle_result step.1 ec2 step.2.2 closed with
                    | (d, c) => ⟨d, c, [], [], true, true⟩

/-! ## Download sink -/

/-- What one `async_download` run produces: the datum, the destination
file contents afterwards (`none` when it was never opened) and whether
any network operation was issued. -/
structure DownloadOut where
  resp : resp_data
  fileContents : Option (List Char)
  didNet : Bool
  deriving DecidableEq, Repr

/-- Embedding of `std::ofstream(filename, std::ios::binary |
std::ios::app)` semantics: when the open succeeds the prior contents
(empty for a new file) are preserved and the write position is the end,
so the final contents are the prior contents followed by everything
written; `openable = false` models an open failure. -/
def openAppend (openable : Bool) (prior : Option (List Char)) :
    Option (List Char) :=
  if openable then some (prior.getD []) else none

/-- Embedding of `coro_http_client::async_download`: open the
destination in binary append mode; on failure return
`no_such_file_or_directory` with status 404 before any network I/O;
otherwise run the GET with the file as the response sink, which appends
the `delivered` body bytes (fixed, ranged or chunked) to the prior
contents. -/
def async_download (openable : Bool) (prior : Option (List Char))
    (netResp : resp_data) (delivered : List Char) : DownloadOut :=
  match openAppend openable prior with
  | none =>
      ⟨⟨some EC.no_such_file_or_directory, 404, [], false⟩, none, false⟩
  | some base => ⟨netResp, some (base ++ delivered), true⟩

/-! # Theorems -/

theorem findFirstOf_cons_eq_zero (c : Char) (rest s : List Char) :
    findFirstOf (c :: rest) s = some 0 ↔ c ∈ s := by
  unfold findFirstOf
  by_cases h : c ∈ s
  · simp [h]
  · simp only [h, if_neg, if_false]
    cases findFirstOf rest s <;> simp [h]

theorem mem_schemeHeadChars (c : Char) :
    (c ∈ "http://".toList ∨ c ∈ "https://".toList ∨ c ∈ "ws://".toList ∨
        c ∈ "wss://".toList) ↔ c ∈ schemeHeadChars := by
  have h1 : "http://".toList = ['h', 't', 't', 'p', ':', '/', '/'] := rfl
  have h2 : "https://".toList = ['h', 't', 't', 'p', 's', ':', '/', '/'] := rfl
  have h3 : "ws://".toList = ['w', 's', ':', '/', '/'] := rfl
  have h4 : "wss://".toList = ['w', 's', 's', ':', '/', '/'] := rfl
  rw [h1, h2, h3, h4]
  simp only [schemeHeadChars, List.mem_cons, List.not_mem_nil, or_false]
  tauto

/-- C7 counterexample: the claim predicts that a key that is neither
`Host` nor already present is appended with result `true`, but
`add_header` also rejects the empty key: on an empty pending list,
`add_header "" v` leaves the list unchanged and returns `false`. -/
theorem add_header_empty_key_counterexample :
    add_header [] "" "v" = ([], false) ∧
    add_header [] "" "v" ≠ ([("", "v")], true) := by
  constructor
  · rfl
  · decide

/-- C7 (amended): `add_header` returns `false` and leaves the pending
headers unchanged for the key `Host`, for the empty key, and for any key
already present; for every other key the pair is appended and `true` is
returned. -/
theorem add_header_spec (hdrs : List (String × String)) (key val : String) :
    add_header hdrs "Host" val = (hdrs, false) ∧
    add_header hdrs "" val = (hdrs, false) ∧
    (hdrs.any (fun p => p.1 = key) = true →
      add_header hdrs key val = (hdrs, false)) ∧
    (key ≠ "" → key ≠ "Host" → hdrs.any (fun p => p.1 = key) = false →
      add_header hdrs key val = (hdrs ++ [(key, val)], true)) := by
  refine ⟨by simp [add_header], by simp [add_header], ?_, ?_⟩
  · intro h
    unfold add_header
    split_ifs <;> simp_all
  · intro h1 h2 h3
    unfold add_header
    split_ifs <;> simp_all

/-- Witness for `add_header_spec` at a concrete fresh key. -/
theorem add_header_spec_witness :
    add_header [("Accept", "a")] "X-Id" "1" =
      ([("Accept", "a"), ("X-Id", "1")], true) :=
  (add_header_spec [("Accept", "a")] "X-Id" "1").2.2.2
    (by decide) (by decide) (by decide)

/-- C3 counterexample: `"host.com"` starts with none of the four scheme
literals, so the claim predicts `"http://"` is prepended; the source's
character-set search sees the leading `'h'` and leaves the URL
unchanged. -/
theorem check_scheme_counterexample :
    "host.com".toList.take 7 ≠ "http://".toList ∧
    "host.com".toList.take 8 ≠ "https://".toList ∧
    "host.com".toList.take 5 ≠ "ws://".toList ∧
    "host.com".toList.take 6 ≠ "wss://".toList ∧
    check_scheme "host.com".toList = "host.com".toList ∧
    check_scheme "host.com".toList ≠ "http://".toList ++ "host.com".toList := by
  refine ⟨by decide, by decide, by decide, by decide, by decide, by decide⟩

/-- C3 (amended): `check_scheme` prepends `"http://"` exactly when the
URL is empty or its first character is outside the character set
`{h, t, p, s, w, :, /}` drawn from the four scheme literals; any URL
whose first character lies in that set is left unchanged, whether or not
it carries a scheme. -/
theorem check_scheme_amended (url : List Char) :
    check_scheme url =
      match url with
      | [] => "http://".toList
      | c :: rest =>
          if c ∈ schemeHeadChars then c :: rest
          else "http://".toList ++ c :: rest := by
  cases url with
  | nil => simp [check_scheme, findFirstOf]
  | cons c rest =>
      simp only [check_scheme, findFirstOf_cons_eq_zero]
      by_cases h : c ∈ schemeHeadChars
      · rw [if_pos ((mem_schemeHeadChars c).mpr h)]
        simp [h]
      · rw [if_neg (fun hc => h ((mem_schemeHeadChars c).mp hc))]
        simp [h]

theorem uploadOrder_cons (kv : List Char × multipart_t)
    (form : List (List Char × multipart_t)) :
    uploadOrder (kv :: form) = kv.1 :: uploadOrder form := rfl

theorem mapEmplace_head (form : List (List Char × multipart_t))
    (k : List Char) (v : multipart_t) :
    (uploadOrder (mapEmplace form k v).1).head? = some k ∨
      (uploadOrder (mapEmplace form k v).1).head? = (uploadOrder form).head? := by
  cases form with
  | nil => left; rfl
  | cons hd tl =>
      rcases hd with ⟨k1, v1⟩
      unfold mapEmplace
      split_ifs <;> simp [uploadOrder]

theorem mapEmplace_sorted (form : List (List Char × multipart_t))
    (k : List Char) (v : multipart_t)
    (h : List.Chain' (fun a b => charListLt a b = true) (uploadOrder form)) :
    List.Chain' (fun a b => charListLt a b = true)
      (uploadOrder (mapEmplace form k v).1) := by
  induction form with
  | nil => simp [mapEmplace, uploadOrder]
  | cons hd tl ih =>
      rcases hd with ⟨k1, v1⟩
      rw [uploadOrder_cons] at h
      have hlink := (List.chain'_cons'.mp h).1
      have htl := (List.chain'_cons'.mp h).2
      unfold mapEmplace
      split_ifs with h1 h2
      · rw [uploadOrder_cons, uploadOrder_cons]
        exact List.chain'_cons'.mpr ⟨fun b hb => by simp at hb; subst hb; exact h1, h⟩
      · rw [uploadOrder_cons]
        refine List.chain'_cons'.mpr ⟨?_, ih htl⟩
        intro b hb
        rcases mapEmplace_head tl k v with hh | hh
        · rw [hh] at hb
          simp at hb
          subst hb
          exact h2
        · rw [hh] at hb
          exact hlink b hb
      · exact List.chain'_cons'.mpr ⟨hlink, htl⟩

/-- C6 counterexample: registering the names `"b"` then `"a"` (distinct
names) makes `async_upload` iterate `form_data_` — a key-sorted
`std::map` — and transmit `"a"` before `"b"`, not in registration
order. -/
theorem form_order_counterexample :
    uploadOrder (buildForm [("b".toList, []), ("a".toList, [])]) =
      ["a".toList, "b".toList] ∧
    ["a".toList, "b".toList] ≠ ["b".toList, "a".toList] := by
  refine ⟨by decide, by decide⟩

/-- C6 (amended): for every sequence of part registrations starting from
the empty registry, `async_upload` transmits the parts in strictly
increasing lexicographic key order (the `std::map` iteration order),
which coincides with registration order only when the names were
registered in increasing order. -/
theorem upload_order_sorted (adds : List (List Char × List Char)) :
    List.Chain' (fun a b => charListLt a b = true)
      (uploadOrder (buildForm adds)) := by
  suffices h : ∀ m, List.Chain' (fun a b => charListLt a b = true) (uploadOrder m) →
      List.Chain' (fun a b => charListLt a b = true)
        (uploadOrder (adds.foldl (fun m nc => (add_str_part m nc.1 nc.2).1) m)) by
    exact h [] (by simp [uploadOrder])
  induction adds with
  | nil => intro m hm; exact hm
  | cons a rest ih =>
      intro m hm
      exact ih _ (mapEmplace_sorted m a.1 _ hm)

/-- C2: evaluation of the reader's close-frame slice at the failing
input.  For a close payload of the 2-byte status code followed by
`"bye"`, the code advances the pointer by 2 but shrinks the length by 4,
so `on_ws_close_` receives `"b"`; stripping exactly the 2-byte prefix
would give `"bye"`. -/
theorem ws_close_payload_bug :
    wsCloseDelivered
        (Char.ofNat 3 :: Char.ofNat 232 :: 'b' :: 'y' :: 'e' :: []) = ['b'] ∧
    (['b'] : List Char) ≠ ['b', 'y', 'e'] ∧
    (Char.ofNat 3 :: Char.ofNat 232 :: 'b' :: 'y' :: 'e' :: []).drop 2 =
      ['b', 'y', 'e'] := by
  refine ⟨by decide, by decide, by decide⟩

/-- C8: whenever the received frame sequence contains a close frame, the
reader-loop trace consists of one `on_ws_msg_` event per preceding data
frame, then exactly one `on_ws_close_` invocation, the reply close frame
and the socket closure, and nothing after — in particular no
`on_ws_msg_` occurs after the close frame is processed. -/
theorem ws_close_once (fs : List WsFrame) (h : ∃ p, WsFrame.close p ∈ fs) :
    ∃ (ms : List (List Char)) (q : List Char),
      wsReaderTrace fs =
        ms.map WsEvent.onMsg ++
          [WsEvent.onClose q, WsEvent.sentClose, WsEvent.socketClosed] ∧
      (wsReaderTrace fs).countP isCloseEvent = 1 := by
  induction fs with
  | nil =>
      rcases h with ⟨p, hp⟩
      simp at hp
  | cons f rest ih =>
      cases f with
      | close p =>
          refine ⟨[], wsCloseDelivered p, rfl, ?_⟩
          simp [wsReaderTrace, isCloseEvent]
      | data p =>
          rcases h with ⟨q, hq⟩
          have hq2 : WsFrame.close q ∈ rest := by
            rcases List.mem_cons.mp hq with h1 | h1
            · simp at h1
            · exact h1
          rcases ih ⟨q, hq2⟩ with ⟨ms, q2, he, hc⟩
          refine ⟨p :: ms, q2, ?_, ?_⟩
          · simp [wsReaderTrace, he]
          · simp [wsReaderTrace, List.countP_cons, hc, isCloseEvent]

/-- Witness for `ws_close_once` at a concrete frame sequence. -/
theorem ws_close_once_witness :
    ∃ (ms : List (List Char)) (q : List Char),
      wsReaderTrace [WsFrame.data ['a'], WsFrame.close ['x', 'x', 'x', 'x', 'x']] =
        ms.map WsEvent.onMsg ++
          [WsEvent.onClose q, WsEvent.sentClose, WsEvent.socketClosed] ∧
      (wsReaderTrace
          [WsFrame.data ['a'], WsFrame.close ['x', 'x', 'x', 'x', 'x']]).countP
        isCloseEvent = 1 :=
  ws_close_once _ ⟨['x', 'x', 'x', 'x', 'x'], by decide⟩

theorem hexVal_toHexDigit : ∀ n : Nat, n < 16 → hexVal (toHexDigit n) = some n := by
  decide

theorem hexRunVal_append (xs ys : List Char) (acc : Nat)
    (h : ∀ c ∈ xs, (hexVal c).isSome = true) :
    hexRunVal (xs ++ ys) acc = hexRunVal ys (hexRunVal xs acc) := by
  induction xs generalizing acc with
  | nil => rfl
  | cons c xs ih =>
      have hc := h c (by simp)
      rcases ho : hexVal c with _ | d
      · rw [ho] at hc
        simp at hc
      · simp only [List.cons_append, hexRunVal, ho]
        exact ih _ (fun c2 hc2 => h c2 (by simp [hc2]))

theorem toHexAux_allHex :
    ∀ fuel n, n ≤ fuel → ∀ c ∈ toHexAux fuel n, (hexVal c).isSome = true := by
  intro fuel
  induction fuel with
  | zero =>
      intro n hn c hc
      simp [toHexAux] at hc
  | succ f ih =>
      intro n hn c hc
      match n, hn, hc with
      | 0, _, hc => simp [toHexAux] at hc
      | m + 1, hn, hc =>
          rw [toHexAux] at hc
          rcases List.mem_append.mp hc with h1 | h1
          · have hdiv : (m + 1) / 16 ≤ f := by
              have := Nat.div_lt_self (Nat.succ_pos m) (by decide : 1 < 16)
              omega
            exact ih _ hdiv c h1
          · simp only [List.mem_singleton] at h1
            subst h1
            rw [hexVal_toHexDigit _ (Nat.mod_lt _ (by decide))]
            rfl

theorem hexRunVal_toHexAux :
    ∀ fuel n acc, n ≤ fuel →
      hexRunVal (toHexAux fuel n) acc =
        acc * 16 ^ (toHexAux fuel n).length + n := by
  intro fuel
  induction fuel with
  | zero =>
      intro n acc hn
      have : n = 0 := Nat.le_zero.mp hn
      subst this
      simp [toHexAux, hexRunVal]
  | succ f ih =>
      intro n acc hn
      match n with
      | 0 => simp [toHexAux, hexRunVal]
      | m + 1 =>
          have hdiv : (m + 1) / 16 ≤ f := by
            have := Nat.div_lt_self (Nat.succ_pos m) (by decide : 1 < 16)
            omega
          rw [toHexAux]
          rw [hexRunVal_append _ _ _ (toHexAux_allHex f _ hdiv)]
          have hdig : hexVal (toHexDigit ((m + 1) % 16)) = some ((m + 1) % 16) :=
            hexVal_toHexDigit _ (Nat.mod_lt _ (by decide))
          simp only [hexRunVal, hdig]
          rw [ih _ acc hdiv]
          have hdm : 16 * ((m + 1) / 16) + (m + 1) % 16 = m + 1 :=
            Nat.div_add_mod (m + 1) 16
          simp only [List.length_append, List.length_singleton]
          calc 16 * (acc * 16 ^ (toHexAux f ((m + 1) / 16)).length + (m + 1) / 16) +
                  (m + 1) % 16
              = acc * 16 ^ ((toHexAux f ((m + 1) / 16)).length + 1) +
                  (16 * ((m + 1) / 16) + (m + 1) % 16) := by ring
            _ = acc * 16 ^ ((toHexAux f ((m + 1) / 16)).length + 1) + (m + 1) := by
                  rw [hdm]

theorem toHex_allHex (n : Nat) : ∀ c ∈ toHex n, (hexVal c).isSome = true := by
  match n with
  | 0 => decide
  | m + 1 => exact toHexAux_allHex (m + 1) (m + 1) le_rfl

theorem toHex_ne_nil (n : Nat) : toHex n ≠ [] := by
  match n with
  | 0 => decide
  | m + 1 =>
      rw [toHex, toHexAux]
      simp

theorem toHex_not_cr (n : Nat) : '\r' ∉ toHex n := by
  intro hm
  have := toHex_allHex n '\r' hm
  simp [hexVal] at this

theorem hexToInt_toHex (n : Nat) : hexToInt (toHex n) = (n : Int) := by
  match n with
  | 0 => decide
  | m + 1 =>
      have hrun : hexRunVal (toHex (m + 1)) 0 = m + 1 := by
        rw [toHex]
        rw [hexRunVal_toHexAux (m + 1) (m + 1) 0 le_rfl]
        simp
      obtain ⟨c, rest, hcr⟩ : ∃ c rest, toHex (m + 1) = c :: rest := by
        cases h : toHex (m + 1) with
        | nil => exact absurd h (toHex_ne_nil _)
        | cons c r => exact ⟨c, r, rfl⟩
      have hc : (hexVal c).isSome = true := toHex_allHex (m + 1) c (by rw [hcr]; simp)
      rcases ho : hexVal c with _ | d
      · rw [ho] at hc
        simp at hc
      · rw [hcr] at hrun ⊢
        simp only [hexToInt, ho]
        exact_mod_cast hrun

theorem splitAtCRCF_append (line rest : List Char) (h : '\r' ∉ line) :
    splitAtCRCF (line ++ '\r' :: '\n' :: rest) = some (line, rest) := by
  induction line with
  | nil => rfl
  | cons c l ih =>
      have hc : ¬(c = '\r' ∧ ('\r' :: '\n' :: rest ++ l).length = 0) := by
        intro hand
        exact h (by simp [hand.1])
      have hc2 : c ≠ '\r' := fun he => h (by simp [he])
      have hl : '\r' ∉ l := fun hm => h (by simp [hm])
      cases l with
      | nil =>
          simp only [List.nil_append, List.cons_append]
          rw [splitAtCRCF]
          simp [hc2]
          rfl
      | cons d l2 =>
          simp only [List.cons_append] at ih ⊢
          rw [splitAtCRCF]
          rw [if_neg (fun hand => hc2 hand.1)]
          rw [ih hl]

theorem handle_chunked_succ (fuel : Nat) (input acc : List Char) (status : Nat) :
    handle_chunked (fuel + 1) input acc status =
      match splitAtCRCF input with
      | none => some ⟨some EC.not_connected, acc, status, false, input⟩
      | some (line, rest) =>
          let sz := hexToInt line
          if sz < 0 then
            some ⟨some EC.invalid_argument, acc, status, false, rest⟩
          else if sz = 0 then
            some ⟨none, acc, 200, true, rest.drop 2⟩
          else if rest.length < sz.toNat + 2 then
            some ⟨some EC.not_connected, acc, status, false, rest⟩
          else
            handle_chunked fuel (rest.drop (sz.toNat + 2))
              (acc ++ rest.take sz.toNat) status := rfl

theorem handle_chunked_encode (chunks : List (List Char)) (tail : List Char)
    (status : Nat) (h : ∀ c ∈ chunks, c ≠ []) :
    ∀ acc, handle_chunked (chunks.length + 1)
        ((chunks.map encodeChunk).flatten ++ ('0' :: CRCF) ++ CRCF ++ tail)
        acc status =
      some ⟨none, acc ++ chunks.flatten, 200, true, tail⟩ := by
  induction chunks with
  | nil =>
      intro acc
      have hin : (([] : List (List Char)).map encodeChunk).flatten ++
          ('0' :: CRCF) ++ CRCF ++ tail =
          ['0'] ++ '\r' :: '\n' :: ('\r' :: '\n' :: tail) := by
        simp [CRCF]
      rw [hin, handle_chunked_succ,
        splitAtCRCF_append ['0'] ('\r' :: '\n' :: tail) (by decide)]
      simp only [show hexToInt ['0'] = 0 from by decide]
      simp
  | cons c cs ih =>
      intro acc
      have hcne : c ≠ [] := h c (by simp)
      have hpos : 0 < c.length := List.length_pos.mpr hcne
      have hin : ((c :: cs).map encodeChunk).flatten ++ ('0' :: CRCF) ++ CRCF ++ tail =
          toHex c.length ++ '\r' :: '\n' ::
            (c ++ '\r' :: '\n' ::
              ((cs.map encodeChunk).flatten ++ ('0' :: CRCF) ++ CRCF ++ tail)) := by
        simp [encodeChunk, CRCF, List.append_assoc]
      rw [hin, handle_chunked_succ,
        splitAtCRCF_append _ _ (toHex_not_cr c.length)]
      simp only [hexToInt_toHex]
      rw [if_neg (by simp), if_neg (by simpa using hpos.ne.symm)]
      have htoNat : ((c.length : Int)).toNat = c.length := Int.toNat_natCast c.length
      rw [htoNat]
      have hrest : c ++ '\r' :: '\n' ::
          ((cs.map encodeChunk).flatten ++ ('0' :: CRCF) ++ CRCF ++ tail) =
          (c ++ ['\r', '\n']) ++
            ((cs.map encodeChunk).flatten ++ ('0' :: CRCF) ++ CRCF ++ tail) := by
        simp [List.append_assoc]
      have hlen2 : (c ++ ['\r', '\n']).length = c.length + 2 := by simp
      rw [hrest]
      rw [if_neg (by simp [hlen2])]
      rw [List.drop_left' hlen2]
      rw [show ((c ++ ['\r', '\n']) ++
            ((cs.map encodeChunk).flatten ++ ('0' :: CRCF) ++ CRCF ++ tail)).take
            c.length = c by
        rw [← hrest]
        exact List.take_left' rfl]
      have hfuel : (c :: cs).length = cs.length + 1 := by simp
      rw [hfuel, ih (fun d hd => h d (by simp [hd])) (acc ++ c)]
      simp

/-- C5 counterexample: the claim says the decoder sets the status to 200
only "if unset", but `handle_chunked` overwrites the status
unconditionally: entering with the already-parsed status 404 and the
well-formed terminal chunk `0\r\n\r\n`, the result carries status 200,
not 404. -/
theorem chunked_status_counterexample :
    handle_chunked 1 "0\r\n\r\n".toList [] 404 =
      some ⟨none, [], 200, true, []⟩ ∧ (200 : Nat) ≠ 404 := by
  refine ⟨by decide, by decide⟩

/-- C5 (amended): for every well-formed chunked stream (nonempty chunks
followed by the zero chunk and its trailing CRLF), `handle_chunked`
succeeds with no error, delivers exactly the concatenation of the chunk
payloads (consuming `size + 2` bytes per chunk), consumes the final
CRLF leaving exactly the trailing bytes, sets `eof`, and sets the status
to 200 unconditionally — overwriting any previously parsed status
`status0`, rather than only when the status is unset. -/
theorem chunked_decode (chunks : List (List Char)) (tail : List Char)
    (status0 : Nat) (h : ∀ c ∈ chunks, c ≠ []) :
    handle_chunked (chunks.length + 1) (encodeChunked chunks ++ tail) [] status0 =
      some ⟨none, chunks.flatten, 200, true, tail⟩ := by
  have h2 := handle_chunked_encode chunks tail status0 h []
  simpa [encodeChunked, List.append_assoc] using h2

/-- Witness for `chunked_decode` on the spec's literal scenario 2:
`5\r\nhello\r\n6\r\n world\r\n0\r\n\r\n` decodes to `"hello world"`. -/
theorem chunked_decode_witness :
    handle_chunked (["hello".toList, " world".toList].length + 1)
        (encodeChunked ["hello".toList, " world".toList] ++ []) [] 404 =
      some ⟨none, ["hello".toList, " world".toList].flatten, 200, true, []⟩ :=
  chunked_decode ["hello".toList, " world".toList] [] 404 (by decide)

theorem dispositionLit_length : dispositionLit.length = 38 := by decide

theorem filenameLit_length : ("; filename=\"".toList).length = 12 := by decide

theorem contentTypeLit_length : ("Content-Type: ".toList).length = 14 := by decide

theorem part_accounting (B : List Char) (mime : List Char → Option (List Char))
    (key : List Char) (part : multipart_t) (hB : B.length = 33)
    (hbase : basename part.filename = part.filename)
    (hstr : part.filename = [] → part.size = part.content.length) :
    75 + key.length + 1 +
        (if part.filename = [] then 0
         else
           12 + part.filename.length + 1 +
             (match mime (extOf part.filename) with
              | some m => 14 + m.length
              | none => 0)) +
        4 + (part.size + 2) = partWireLen B mime key part := by
  have hd := dispositionLit_length
  have hfn := filenameLit_length
  have hct := contentTypeLit_length
  by_cases hf : part.filename = []
  · simp only [partWireLen, partHead, hf, if_pos, if_true, List.length_append,
      List.length_cons, hstr hf, hB, TWO_CRCF, CRCF]
    simp
    omega
  · simp only [partWireLen, partHead, hbase, if_neg hf, List.length_append,
      List.length_cons, hB, TWO_CRCF, CRCF]
    rcases hm : mime (extOf part.filename) with _ | m
    · simp only [hm]
      simp
      omega
    · simp only [hm, List.length_append]
      simp
      rw [hB, hd]
      ring

/-- C1 counterexample: a file part registered under the path `"d/a"`
(with a directory component).  `multipart_content_len` counts
`12 + 3 + 1` bytes for the `filename="..."` fragment using the full
path, while `send_single_part` sends only the basename `"a"` inside the
quotes, so the precomputed `Content-Length` differs from the bytes put
on the wire (boundary of the length 33 presupposed by the per-part
constant 75, no MIME entry). -/
theorem multipart_len_counterexample :
    multipart_content_len (List.replicate 33 'B') (fun _ => none)
        [("k".toList, ⟨"d/a".toList, [], 0⟩)] ≠
      multipartWireLen (List.replicate 33 'B') (fun _ => none)
        [("k".toList, ⟨"d/a".toList, [], 0⟩)] := by
  decide

/-- C1 (amended): whenever the boundary has the length 33 presupposed by
the per-part constant 75 (as the concrete cinatra `BOUNDARY` does) and
every file part is registered under a bare filename — one with no
directory components, so the registered name equals the basename the
sender emits — `multipart_content_len` equals the exact number of bytes
transmitted from the first byte of the first part header through the
closing boundary `--BOUNDARY--\r\n` inclusive; for a path with directory
components it overcounts by the length of the directory prefix. -/
theorem multipart_content_len_eq_wire (B : List Char)
    (mime : List Char → Option (List Char))
    (parts : List (List Char × multipart_t)) (hB : B.length = 33)
    (h : ∀ kp ∈ parts, basename kp.2.filename = kp.2.filename ∧
        (kp.2.filename = [] → kp.2.size = kp.2.content.length)) :
    multipart_content_len B mime parts = multipartWireLen B mime parts := by
  induction parts with
  | nil =>
      simp [multipart_content_len, multipartWireLen, closingBytes, CRCF, hB]
  | cons kp rest ih =>
      have hkp := h kp (by simp)
      have hrest : ∀ kp2 ∈ rest, basename kp2.2.filename = kp2.2.filename ∧
          (kp2.2.filename = [] → kp2.2.size = kp2.2.content.length) :=
        fun kp2 hk => h kp2 (by simp [hk])
      have hih := ih hrest
      simp only [multipart_content_len, multipartWireLen, List.map_cons,
        List.sum_cons] at hih ⊢
      rw [part_accounting B mime kp.1 kp.2 hB hkp.1 hkp.2]
      omega

/-- Witness for `multipart_content_len_eq_wire` at one string part. -/
theorem multipart_content_len_eq_wire_witness :
    multipart_content_len (List.replicate 33 'B') (fun _ => none)
        [("k".toList, ⟨[], "hi".toList, 2⟩)] =
      multipartWireLen (List.replicate 33 'B') (fun _ => none)
        [("k".toList, ⟨[], "hi".toList, 2⟩)] :=
  multipart_content_len_eq_wire _ _ _ (by decide) (by decide)

/-- C4 counterexample: an `async_upload` whose connect succeeds and
whose header write then fails returns a datum with a non-empty error
code and status 404 — yet the early `co_return resp_data{ec, 404}` skips
`handle_result`, so the socket is left open (`closed? = false`),
refuting "the connection state satisfies closed? = true" for every
request returning an error. -/
theorem upload_error_leaves_open_counterexample :
    (async_upload ⟨true, [], [("k".toList, ⟨[], "hi".toList, 2⟩)]⟩
        ⟨true, false, none, none, some EC.not_connected, [], none, none,
          200, [], true, true, false⟩).resp.net_err = some EC.not_connected ∧
    (async_upload ⟨true, [], [("k".toList, ⟨[], "hi".toList, 2⟩)]⟩
        ⟨true, false, none, none, some EC.not_connected, [], none, none,
          200, [], true, true, false⟩).resp.status = 404 ∧
    (async_upload ⟨true, [], [("k".toList, ⟨[], "hi".toList, 2⟩)]⟩
        ⟨true, false, none, none, some EC.not_connected, [], none, none,
          200, [], true, true, false⟩).closed = false := by
  refine ⟨by decide, by decide, by decide⟩

/-- C4 (amended): for `async_request` the claim holds — every run whose
returned datum carries a non-empty error code (URI parse failure,
connect/handshake failure, write failure, read failure or timeout, all
values of the environment) returns that datum with status 404 and ends
with `closed? = true`, because every such path either stamps the datum
in `handle_uri` or reaches the error branch of `handle_result` (error
paths stamp 404 and close there; the URI parse path is stamped by
`handle_uri` and closes through the not-keep-alive branch).  The
guarantee does not extend to `async_upload`, whose mid-stream error
returns skip `handle_result`. -/
theorem request_error_closes (st : ClientState) (env : ReqEnv)
    (h : (async_request st env).1.net_err ≠ none) :
    (async_request st env).1.status = 404 ∧ (async_request st env).2 = true := by
  rcases env with ⟨po, ssl, cec, sec, wec, rec, rs, rb, re, rka, tf⟩
  rcases st with ⟨hc, hdrs, form⟩
  simp only [async_request, connectPhase, handle_result] at h ⊢
  cases po <;> cases hc <;> cases tf <;> cases cec <;> cases ssl <;>
    cases sec <;> cases wec <;> cases rec <;> simp_all

/-- Witness for `request_error_closes`: a URI parse failure. -/
theorem request_error_closes_witness :
    (async_request ⟨true, [], []⟩
        ⟨false, false, none, none, none, none, 200, [], true, true, false⟩).1.status =
      404 ∧
    (async_request ⟨true, [], []⟩
        ⟨false, false, none, none, none, none, 200, [], true, true, false⟩).2 =
      true :=
  request_error_closes ⟨true, [], []⟩
    ⟨false, false, none, none, none, none, 200, [], true, true, false⟩
    (by decide)

/-- C9: with an empty multipart registry `async_upload` returns a datum
with empty `net_err` and status 404 before reaching the connect or any
write; and on every return path the scope guard leaves both the pending
user headers and the multipart registry cleared. -/
theorem upload_empty_and_clears (st : ClientState) (env : UploadEnv) :
    (st.form_data = [] →
      (async_upload st env).resp = ⟨none, 404, [], false⟩ ∧
      (async_upload st env).didConnect = false ∧
      (async_upload st env).didWrite = false) ∧
    (async_upload st env).headersAfter = [] ∧
    (async_upload st env).formAfter = [] := by
  rcases st with ⟨hc, hdrs, form⟩
  refine ⟨?_, ?_⟩
  · intro hf
    simp only at hf
    subst hf
    simp [async_upload]
  · unfold async_upload
    constructor <;>
      · repeat' split
        all_goals rfl

/-- Witness for `upload_empty_and_clears` at an empty registry with
pending headers. -/
theorem upload_empty_and_clears_witness :
    (async_upload ⟨true, [("Accept", "x")], []⟩
        ⟨true, false, none, none, none, [], none, none, 200, [], true, true,
          false⟩).resp = ⟨none, 404, [], false⟩ ∧
    (async_upload ⟨true, [("Accept", "x")], []⟩
        ⟨true, false, none, none, none, [], none, none, 200, [], true, true,
          false⟩).didConnect = false :=
  ⟨((upload_empty_and_clears ⟨true, [("Accept", "x")], []⟩
      ⟨true, false, none, none, none, [], none, none, 200, [], true, true,
        false⟩).1 rfl).1,
    ((upload_empty_and_clears ⟨true, [("Accept", "x")], []⟩
      ⟨true, false, none, none, none, [], none, none, 200, [], true, true,
        false⟩).1 rfl).2.1⟩

/-- C10: `async_download` opens the destination in binary append mode,
so the prior contents of an existing destination file are preserved and
the delivered body bytes are written after them (never a truncation);
when the open fails it returns `no_such_file_or_directory` with status
404 and issues no network I/O. -/
theorem download_append (openable : Bool) (prior : Option (List Char))
    (netResp : resp_data) (delivered : List Char) :
    (openable = false →
      async_download openable prior netResp delivered =
        ⟨⟨some EC.no_such_file_or_directory, 404, [], false⟩, none, false⟩) ∧
    (openable = true →
      (async_download openable prior netResp delivered).fileContents =
        some (prior.getD [] ++ delivered) ∧
      (async_download openable prior netResp delivered).didNet = true) := by
  constructor <;> intro h <;> subst h <;> simp [async_download, openAppend]

/-- Witness for `download_append` at a failing and a succeeding open. -/
theorem download_append_witness :
    async_download false (some ['x']) ⟨none, 200, [], true⟩ ['y'] =
      ⟨⟨some EC.no_such_file_or_directory, 404, [], false⟩, none, false⟩ ∧
    (async_download true (some ['x']) ⟨none, 200, [], true⟩ ['y']).fileContents =
      some (['x'] ++ ['y']) :=
  ⟨(download_append false (some ['x']) ⟨none, 200, [], true⟩ ['y']).1 rfl,
    ((download_append true (some ['x']) ⟨none, 200, [], true⟩ ['y']).2 rfl).1⟩

end Cinatra
